import Mathlib

/-!
Verification of the dependency-update core of the molt repository.

The development shallowly embeds the TypeScript sources:
* the semantic-version model and range algebra of the `@std/semver`
  collaborator library, restricted to the three constraint kinds used by the
  repository (exact, tilde, caret — the spec's `VersionConstraint` data model);
* `increase`/`_increase` from `constraints.ts`;
* `parse`/`stringify` from `src/core/deps.ts`;
* `getRemoteUpdate`/`getRemoteLatestVersion`/`getPackageUpdate` from
  `src/core/updates.ts` (network fetches become explicit parameters);
* `createLockFileOmitKeys` and the merge step of `writeToLockfile` from
  `src/core/lockfile.ts`;
* the recursive `insertPackage`/`createLock` lock-graph builder (fuelled, with
  an explicit registry environment and a call log for its fetch/insert events).

Machine integers do not occur (all sizes are unbounded in the source), and all
fallible operations return `Option`.
-/

namespace Molt

/-! ## Semantic versions (model of `@std/semver` values and comparison) -/

/-- A single prerelease identifier: numeric identifiers compare numerically and
below alphanumeric ones; alphanumeric identifiers compare lexicographically by
code unit. -/
inductive PreId where
  | num (n : Nat)
  | str (s : List Char)
deriving DecidableEq, Repr

/-- A parsed semantic version `major.minor.patch(-prerelease)?`. Build metadata
never occurs in the repository's inputs and is not modelled. -/
structure SemV where
  major : Nat
  minor : Nat
  patch : Nat
  pre : List PreId
deriving DecidableEq, Repr

/-- The number comparison used throughout `@std/semver`'s `compare`. -/
def ncmp (a b : Nat) : Ordering :=
  if a < b then .lt else if b < a then .gt else .eq

/-- Pointwise composition of two comparators, second deciding ties. -/
def lex2 (f g : α → α → Ordering) : α → α → Ordering :=
  fun a b => (f a b).then (g a b)

/-- Comparator obtained by mapping into another comparator. -/
def onFun (cmp : β → β → Ordering) (f : α → β) : α → α → Ordering :=
  fun a b => cmp (f a) (f b)

/-- Lexicographic comparison of lists by an element comparator; an exhausted
list compares below a longer one (semver rule for prerelease identifier
sequences of different lengths). -/
def listLex (cmp : α → α → Ordering) : List α → List α → Ordering
  | [], [] => .eq
  | [], _ :: _ => .lt
  | _ :: _, [] => .gt
  | a :: as, b :: bs => (cmp a b).then (listLex cmp as bs)

/-- Comparison of two prerelease identifiers. -/
def idCmp : PreId → PreId → Ordering
  | .num a, .num b => ncmp a b
  | .num _, .str _ => .lt
  | .str _, .num _ => .gt
  | .str a, .str b => listLex (onFun ncmp Char.toNat) a b

/-- Comparison of the prerelease components of two versions: a release (empty
prerelease) is greater than any prerelease of the same triple. -/
def preCmp : List PreId → List PreId → Ordering
  | [], [] => .eq
  | [], _ :: _ => .gt
  | _ :: _, [] => .lt
  | a :: as, b :: bs => listLex idCmp (a :: as) (b :: bs)

/-- `SemVer.compare`: major, then minor, then patch, then prerelease. -/
def svCmp : SemV → SemV → Ordering :=
  lex2 (onFun ncmp SemV.major) <| lex2 (onFun ncmp SemV.minor) <|
    lex2 (onFun ncmp SemV.patch) (onFun preCmp SemV.pre)

/-! ## Ranges (model of `@std/semver` comparator sets for the repository's
constraint grammar) -/

/-- Comparator operators occurring in the ranges the repository builds:
`>=` and `<` from tilde/caret expansion, and the bare (equality) comparator
from a fixed version. -/
inductive CompOp where
  | ge
  | lt
deriving DecidableEq, Repr

/-- One comparator; `op = none` is the bare equality comparator (the
`operator === undefined` case tested by `_increase`). -/
structure Comparator where
  op : Option CompOp
  ver : SemV
deriving DecidableEq, Repr

/-- A range: a disjunction of comparator sets. -/
abbrev RangeSem := List (List Comparator)

/-- Does `v` satisfy one comparator (plain comparison semantics of
`@std/semver`'s `testRange`)? -/
def satisfiesCmp (v : SemV) (c : Comparator) : Bool :=
  match c.op with
  | none => svCmp v c.ver == .eq
  | some .ge => svCmp v c.ver != .lt
  | some .lt => svCmp v c.ver == .lt

/-- `SemVer.satisfies`: some comparator set has all comparators satisfied. -/
def satisfiesRange (v : SemV) (r : RangeSem) : Bool :=
  r.any fun set => set.all (satisfiesCmp v)

/-- Caret expansion: lower bound at the version, upper bound at the next
breaking boundary (leftmost non-zero component). -/
def caretSet (t : SemV) : List Comparator :=
  if t.major ≠ 0 then
    [⟨some .ge, t⟩, ⟨some .lt, ⟨t.major + 1, 0, 0, []⟩⟩]
  else if t.minor ≠ 0 then
    [⟨some .ge, t⟩, ⟨some .lt, ⟨0, t.minor + 1, 0, []⟩⟩]
  else
    [⟨some .ge, t⟩, ⟨some .lt, ⟨0, 0, t.patch + 1, []⟩⟩]

/-- Tilde expansion: same major and minor, patch at least the given one. -/
def tildeSet (t : SemV) : List Comparator :=
  [⟨some .ge, t⟩, ⟨some .lt, ⟨t.major, t.minor + 1, 0, []⟩⟩]

/-! ## Parsing version and constraint strings -/

/-- Read a decimal numeral without leading zeros from the front of `cs`. -/
def readNat (cs : List Char) : Option (Nat × List Char) :=
  let ds := cs.takeWhile (·.isDigit)
  let rest := cs.dropWhile (·.isDigit)
  match ds with
  | [] => none
  | [d] => some (d.toNat - 48, rest)
  | d :: _ :: _ =>
    if d = '0' then none
    else some (ds.foldl (fun n c => n * 10 + (c.toNat - 48)) 0, rest)

/-- Is `c` allowed inside a prerelease identifier? -/
def isIdChar (c : Char) : Bool :=
  c.isAlphanum || c = '-'

/-- Parse one prerelease identifier. -/
def parseId (cs : List Char) : Option PreId :=
  if cs = [] then none
  else if ¬ cs.all isIdChar then none
  else if cs.all (·.isDigit) then
    match readNat cs with
    | some (n, []) => some (.num n)
    | _ => none
  else some (.str cs)

/-- Parse a dot-separated prerelease identifier sequence. -/
def parsePre (cs : List Char) : Option (List PreId) :=
  (cs.splitOn '.').mapM parseId

/-- Parse a fully-qualified version `major.minor.patch(-prerelease)?`
(model of `SemVer.parse`/`tryParse` on the repository's version strings;
build metadata is not modelled). -/
def parseSemVL (cs : List Char) : Option SemV := do
  let (ma, r1) ← readNat cs
  match r1 with
  | '.' :: r1 =>
    let (mi, r2) ← readNat r1
    match r2 with
    | '.' :: r2 =>
      let (pa, r3) ← readNat r2
      match r3 with
      | [] => some ⟨ma, mi, pa, []⟩
      | '-' :: r4 => (parsePre r4).map fun pre => ⟨ma, mi, pa, pre⟩
      | _ => none
    | _ => none
  | _ => none

/-- Parse a constraint string into a range (model of `SemVer.parseRange`
restricted to the spec's three constraint kinds: caret, tilde, exact). -/
def parseRangeL (cs : List Char) : Option RangeSem :=
  match cs with
  | '^' :: rest => (parseSemVL rest).map fun t => [caretSet t]
  | '~' :: rest => (parseSemVL rest).map fun t => [tildeSet t]
  | _ => (parseSemVL cs).map fun t => [[⟨none, t⟩]]

/-! ## `increase` (constraints.ts) -/

/-- Embedding of `_increase(constraint, version)` from `constraints.ts`.
`none` corresponds to a thrown assertion error (`increase` wraps that into
`Unexpected format of version constraint`). `startsWith("^")` on a
single-character argument is rendered as a head test. -/
def increaseImpl (constraint version : String) : Option String :=
  match parseRangeL constraint.data with
  | none => none
  | some range =>
    match range with
    | [comparators] =>
      match parseSemVL version.data with
      | none => none
      | some target =>
        if satisfiesRange target range then some constraint
        else
          match comparators with
          | [⟨none, _⟩] => some version
          | _ =>
            match comparators.find? (fun it => it.op == some .ge),
                comparators.find? (fun it => it.op == some .lt) with
            | some _, some _ =>
              if constraint.data.head? = some '^' then
                some (if target.major ≠ 0 then
                    "^" ++ toString target.major ++ ".0.0"
                  else if target.minor ≠ 0 then
                    "^0." ++ toString target.minor ++ ".0"
                  else
                    "^0.0." ++ toString target.patch)
              else if constraint.data.head? = some '~' then
                some (if target.major ≠ 0 then
                    "~" ++ toString target.major ++ "." ++
                      toString target.minor ++ ".0"
                  else
                    "~" ++ toString target.major ++ "." ++
                      toString target.minor ++ "." ++ toString target.patch)
              else none
            | _, _ => none
    | _ => none

/-- Embedding of the exported `increase` (its try/catch only rewraps the
error, which `Option` already models). -/
def increase (constraint version : String) : Option String :=
  increaseImpl constraint version

/-! ## Formatting versions (`SemVer.format`) -/

/-- Format one prerelease identifier. -/
def fmtId : PreId → String
  | .num n => toString n
  | .str s => String.mk s

/-- `SemVer.format`: `major.minor.patch` with an optional `-prerelease`. -/
def fmtSemV (v : SemV) : String :=
  toString v.major ++ "." ++ toString v.minor ++ "." ++ toString v.patch ++
    (if v.pre.isEmpty then "" else "-" ++ String.intercalate "." (v.pre.map fmtId))

/-! ## `maxWith` (@std/collections) and `maxSatisfying` (@std/semver) -/

/-- One step of `maxWith`'s loop: the first element is the initial maximum,
and a later element replaces the current maximum exactly when the comparator
orders it strictly above. -/
def maxStep (cmp : α → α → Ordering) (acc : Option α) (x : α) : Option α :=
  match acc with
  | none => some x
  | some m => if cmp x m = .gt then some x else some m

/-- `maxWith(array, comparator)` of @std/collections. -/
def maxWith (l : List α) (cmp : α → α → Ordering) : Option α :=
  l.foldl (maxStep cmp) none

/-- `SemVer.maxSatisfying`: greatest version in the list satisfying the
range. -/
def maxSatisfying (semvers : List SemV) (r : RangeSem) : Option SemV :=
  maxWith (semvers.filter fun v => satisfiesRange v r) svCmp

/-! ## Specifier model (src/core/deps.ts) -/

/-- The `DependencyType` of `deps.ts`. -/
inductive DepType where
  | jsr
  | npm
  | remote
deriving DecidableEq, Repr

/-- The `Dependency` interface of `deps.ts`: parsed components of a dependency
specifier. -/
structure Dependency where
  name : String
  version : Option String := none
  entrypoint : Option String := none
  type : DepType
  protocol : String
deriving DecidableEq, Repr

/-- Model of `new URL(specifier)` followed by the protocol check and
`url.hostname + url.pathname`, on the repository's specifier grammar
(`<scheme>:[/]<name>@<constraint>[/<subpath>]` for registry schemes and
`<scheme>://<host>/<path>` for the direct-URL schemes; ports, userinfo,
queries, fragments and percent-encoding do not occur in that grammar). -/
def splitUrl : List Char → Option (String × DepType × List Char)
  | 'j' :: 's' :: 'r' :: ':' :: rest => some ("jsr:", .jsr, rest)
  | 'n' :: 'p' :: 'm' :: ':' :: rest => some ("npm:", .npm, rest)
  | 'h' :: 't' :: 't' :: 'p' :: ':' :: '/' :: '/' :: rest =>
    some ("http:", .remote, rest)
  | 'h' :: 't' :: 't' :: 'p' :: 's' :: ':' :: '/' :: '/' :: rest =>
    some ("https:", .remote, rest)
  | _ => none

/-- The greedy-name part of the regex
`^(?<name>.+)@(?<version>[^/]+)(?<entrypoint>\/.*)?$`: split the body at the
last `@` that is followed by at least one character other than `/`. Returns
the part before that `@` and the remainder after it. -/
def lastAtSplit : List Char → Option (List Char × List Char)
  | [] => none
  | c :: cs =>
    match lastAtSplit cs with
    | some (n, r) => some (c :: n, r)
    | none =>
      if c = '@' then
        match cs with
        | [] => none
        | h :: _ => if h = '/' then none else some ([], cs)
      else none

/-- Full match of the body regex: the name (still carrying a possible leading
slash), the version (up to the next `/`), and the entrypoint remainder. -/
def matchBody (body : List Char) : Option (List Char × List Char × List Char) :=
  match lastAtSplit body with
  | some (n, r) =>
    if n = [] then none
    else some (n, r.takeWhile (· ≠ '/'), r.dropWhile (· ≠ '/'))
  | none => none

/-- The leading-slash normalization of `parse`:
`name.startsWith("/") ? name.slice(1) : name`. -/
def stripSlash : List Char → List Char
  | '/' :: rest => rest
  | l => l

/-- The body of `parse` after the protocol has been recognized: regex match
with leading-slash normalization, or an unversioned dependency when the body
regex does not match. -/
def parseBodyDep (protocol : String) (type : DepType) (body : List Char) :
    Dependency :=
  match matchBody body with
  | some (n, v, e) =>
    { name := String.mk (stripSlash n), version := some (String.mk v),
      entrypoint := if e.isEmpty then none else some (String.mk e),
      type, protocol }
  | none => { name := String.mk body, type, protocol }

/-- Embedding of `parse` from `src/core/deps.ts` (the `Dependency`-returning
version at lines 37–67). `none` is the thrown `Invalid protocol` error. -/
def parse (specifier : String) : Option Dependency :=
  match splitUrl specifier.data with
  | none => none
  | some (protocol, type, body) => some (parseBodyDep protocol type body)

/-- Embedding of `stringify` from `src/core/deps.ts` with no omitted fields
(the "all optional fields included" mode of the round-trip property). -/
def stringify (dep : Dependency) : String :=
  dep.protocol ++ (if dep.type = .remote then "//" else "") ++ dep.name ++
    (match dep.version with
      | some v => "@" ++ v
      | none => "") ++
    (match dep.entrypoint with
      | some e => e
      | none => "")

/-- The four schemes of the input specifier grammar. -/
inductive SchemeK where
  | jsr
  | npm
  | http
  | https
deriving DecidableEq, Repr

/-- The characters a specifier of the given scheme starts with. -/
def protoPrefixL : SchemeK → List Char
  | .jsr => ['j', 's', 'r', ':']
  | .npm => ['n', 'p', 'm', ':']
  | .http => ['h', 't', 't', 'p', ':', '/', '/']
  | .https => ['h', 't', 't', 'p', 's', ':', '/', '/']

/-- The protocol string `parse` stores for the given scheme. -/
def protoStr : SchemeK → String
  | .jsr => "jsr:"
  | .npm => "npm:"
  | .http => "http:"
  | .https => "https:"

/-- The dependency type of the given scheme. -/
def schemeType : SchemeK → DepType
  | .jsr => .jsr
  | .npm => .npm
  | .http => .remote
  | .https => .remote

/-- A specifier of the grammar
`<scheme>:[/]<name>@<constraint>[/<subpath>]` (the optional leading slash
being the tolerated registry-scheme form), as a character list. -/
def mkSpecL (k : SchemeK) (slash : Bool) (name constraint sub : List Char) :
    List Char :=
  protoPrefixL k ++
    ((if slash then ['/'] else []) ++ (name ++ ('@' :: (constraint ++ sub))))

/-- The same specifier as a string. -/
def mkSpec (k : SchemeK) (slash : Bool) (name constraint sub : List Char) :
    String :=
  String.mk (mkSpecL k slash name constraint sub)

/-! ## Registry resolver (src/core/updates.ts) -/

/-- The `DependencyUpdate` interface of `updates.ts`. -/
structure DependencyUpdate where
  latest : String
  constrainted : Option String := none
  released : Option String := none
deriving DecidableEq, Repr

/-- The semantic core of `getPackageUpdate`: the same selection logic before
the final `SemVer.format` calls. The registry response (the version-string
list obtained by `getVersions`) is an explicit parameter. -/
structure UpdateSem where
  latest : SemV
  constrainted : Option SemV := none
  released : Option SemV := none
deriving DecidableEq, Repr

/-- Selection logic of `getPackageUpdate` (src/core/updates.ts, lines 69–95)
on parsed versions: `latest` is the maximum of all parseable versions,
`released` the maximum of the non-prerelease ones, and `constrainted` the
maximum version satisfying the dependency's constraint — computed only when
the dependency carries a version constraint that parses as a range. -/
def getPackageUpdateSem (dep : Dependency) (versions : List String) :
    Option UpdateSem :=
  let semvers := versions.filterMap fun s => parseSemVL s.data
  match maxWith semvers svCmp with
  | none => none
  | some latest =>
    let releases := semvers.filter fun it => it.pre.isEmpty
    let released := maxWith releases svCmp
    match dep.version with
    | none => some { latest, released }
    | some ver =>
      let range := parseRangeL ver.data
      let constrainted := range.bind fun r => maxSatisfying semvers r
      some { latest, constrainted, released }

/-- Embedding of `getPackageUpdate`: formats the selected versions. -/
def getPackageUpdate (dep : Dependency) (versions : List String) :
    Option DependencyUpdate :=
  (getPackageUpdateSem dep versions).map fun u =>
    { latest := fmtSemV u.latest,
      constrainted := u.constrainted.map fmtSemV,
      released := u.released.map fmtSemV }

/-- The observable outcome of the `HEAD` probe issued by
`getRemoteLatestVersion`: whether the response was redirected, and its final
URL. -/
structure RemoteRes where
  redirected : Bool
  url : String
deriving DecidableEq, Repr

/-- Embedding of `getRemoteLatestVersion` (src/core/updates.ts, lines 53–67):
without a redirect there is no discoverable version (`return;`), otherwise the
version component of the redirect target is returned. A `parse` failure on
the redirect URL (a thrown error in the source) is also `none` here. -/
def getRemoteLatestVersion (_dep : Dependency) (res : RemoteRes) :
    Option String :=
  if !res.redirected then none
  else (parse res.url).bind fun d => d.version

/-- Embedding of `getRemoteUpdate` (src/core/updates.ts, lines 37–51). -/
def getRemoteUpdate (dep : Dependency) (res : RemoteRes) :
    Option DependencyUpdate :=
  match getRemoteLatestVersion dep res with
  | none => none
  | some latest =>
    match parseSemVL latest.data with
    | some semver =>
      some { latest,
             released := if semver.pre.isEmpty then some (fmtSemV semver) else none }
    | none => some { latest }

/-! ## Lock merge engine (src/core/lockfile.ts) -/

/-- A `jsr` lock entry. -/
structure JsrEntry where
  integrity : String
  dependencies : Option (List String) := none
deriving DecidableEq, Repr

/-- An `npm` lock entry. -/
structure NpmEntry where
  integrity : String
  dependencies : List (String × String)
deriving DecidableEq, Repr

/-- The `packages` object of a `LockFileJson`. JSON records are association
lists keyed by strings. -/
structure PackagesJson where
  specifiers : List (String × String)
  jsr : Option (List (String × JsrEntry)) := none
  npm : Option (List (String × NpmEntry)) := none
deriving DecidableEq, Repr

/-- The `LockFileJson` shape of `src/core/lockfile.ts`. -/
structure LockFileJson where
  version : String
  packages : Option PackagesJson := none
  remote : Option (List (String × String)) := none
  workspace : Option (List String) := none
deriving DecidableEq, Repr

/-- A `LockPart`: the partial lock for one dependency. -/
structure LockPart where
  specifier : String
  data : LockFileJson
deriving DecidableEq, Repr

/-- The `LockFileOmitKeys` record of `createLockFileOmitKeys`. -/
structure LockFileOmitKeys where
  jsr : List String
  npm : List String
  remote : List String
deriving DecidableEq, Repr

/-- `Object.keys` of a JSON record. -/
def recKeys (l : List (String × α)) : List String :=
  l.map Prod.fst

/-- `Object.keys(data.packages?.jsr ?? {})`. -/
def jsrKeysOf (d : LockFileJson) : List String :=
  recKeys ((d.packages.bind PackagesJson.jsr).getD [])

/-- `Object.keys(data.packages?.npm ?? {})`. -/
def npmKeysOf (d : LockFileJson) : List String :=
  recKeys ((d.packages.bind PackagesJson.npm).getD [])

/-- `Object.keys(data.remote ?? {})`. -/
def remoteKeysOf (d : LockFileJson) : List String :=
  recKeys (d.remote.getD [])

/-- Embedding of `createLockFileOmitKeys` (src/core/lockfile.ts, lines
322–349): keys of the updating dependency's own partial lock that occur in no
other partial lock. `none` is the failed `assertEquals(relevant.length, 1)`.
-/
def createLockFileOmitKeys (specifier : String) (locks : List LockPart) :
    Option LockFileOmitKeys :=
  match locks.partition fun it => it.specifier == specifier with
  | ([patch], others) =>
    some
      { jsr := (jsrKeysOf patch.data).filter fun key =>
          ¬ others.any fun part => (jsrKeysOf part.data).any fun it => it == key,
        npm := (npmKeysOf patch.data).filter fun key =>
          ¬ others.any fun part => (npmKeysOf part.data).any fun it => it == key,
        remote := (remoteKeysOf patch.data).filter fun key =>
          ¬ others.any fun part =>
            (remoteKeysOf part.data).any fun it => it == key }
  | _ => none

/-- Record union as performed by `deepMerge` on string-keyed JSON records:
keys of both sides, the patch side deciding conflicts via the value merge. -/
def mergeRec (f : α → α → α) (a b : List (String × α)) : List (String × α) :=
  (a.map fun e =>
    match List.lookup e.1 b with
    | some w => (e.1, f e.2 w)
    | none => e) ++
    b.filter fun e => (List.lookup e.1 a).isNone

/-- The `omit(record, keys)` of @std/collections. -/
def omitRec (l : List (String × α)) (ks : List String) : List (String × α) :=
  l.filter fun e => ¬ ks.any fun k => k == e.1

/-- `deepMerge` on one `jsr` entry with `{ arrays: "replace" }`: the patch
integrity wins and a patch dependency array replaces the original one. -/
def mergeJsrEntry (a b : JsrEntry) : JsrEntry :=
  { integrity := b.integrity,
    dependencies :=
      match b.dependencies with
      | some d => some d
      | none => a.dependencies }

/-- Default `deepMerge` on one `npm` entry: the patch integrity wins and the
dependency records merge key-wise. -/
def mergeNpmEntry (a b : NpmEntry) : NpmEntry :=
  { integrity := b.integrity,
    dependencies := mergeRec (fun _ y => y) a.dependencies b.dependencies }

/-- The merge step of `writeToLockfile` (src/core/lockfile.ts, lines 274–298)
for one dependency: `specifiers` are deep-merged, and for each namespace the
omit keys are removed from the original before the patch is merged in; a
namespace is touched only when the patch carries it. -/
def writeToLockfileStep (original patch : LockFileJson)
    (omitter : LockFileOmitKeys) : LockFileJson :=
  let original :=
    match original.packages, patch.packages with
    | some op, some pp =>
      let op := { op with specifiers := mergeRec (fun _ y => y) op.specifiers pp.specifiers }
      let op :=
        match pp.jsr with
        | some pj =>
          { op with jsr := some (mergeRec mergeJsrEntry (omitRec (op.jsr.getD []) omitter.jsr) pj) }
        | none => op
      let op :=
        match pp.npm with
        | some pn =>
          { op with npm := some (mergeRec mergeNpmEntry (omitRec (op.npm.getD []) omitter.npm) pn) }
        | none => op
      { original with packages := some op }
    | _, _ => original
  match patch.remote with
  | some pr =>
    { original with
      remote := some (mergeRec (fun _ y => y) (omitRec (original.remote.getD []) omitter.remote) pr) }
  | none => original

/-! ## Lock graph builder (`createLock`/`insertPackage`, newest lockfile
revision) -/

/-- Package kinds reached by `insertPackage`. -/
inductive PkgKind where
  | jsr
  | npm
deriving DecidableEq, Repr

/-- The newest `Dependency` schema (`kind`/`name`/`constraint`/`path`) used by
the lock graph builder. -/
structure DepK where
  kind : PkgKind
  name : String
  constraint : String
  path : String
deriving DecidableEq, Repr

/-- Scheme string of a package kind. -/
def kindStr : PkgKind → String
  | .jsr => "jsr"
  | .npm => "npm"

/-- `stringify(dep)` for the `kind`/`name`/`constraint`/`path` schema (all
fields; `jsr`/`npm` specifiers take no `//`). -/
def stringifyK (d : DepK) : String :=
  kindStr d.kind ++ ":" ++ d.name ++
    (if d.constraint = "" then "" else "@" ++ d.constraint) ++ d.path

/-- `stringify(dep, "name", "constraint")`. -/
def stringifyNC (d : DepK) : String :=
  d.name ++ (if d.constraint = "" then "" else "@" ++ d.constraint)

/-- `stringify(dep, "kind", "name", "constraint")`. -/
def stringifyKNC (d : DepK) : String :=
  kindStr d.kind ++ ":" ++ d.name ++
    (if d.constraint = "" then "" else "@" ++ d.constraint)

/-- The registry environment of the lock graph builder: the responses of
`getUpdate`, `getJsrDependencies`/`getNpmPackageInfo` dependency edges, and
the integrity fetch, per dependency. -/
structure Registry where
  update : DepK → Option DependencyUpdate
  dependencies : DepK → List DepK
  integrity : DepK → String

/-- The lockfile state mutated by `insertPackage`, together with a log of
every `insertPackage` invocation (each one performs the integrity fetch, the
dependency-edge fetch and the insertions for its resolved identifier). -/
structure LockSt where
  specifiers : List (String × String)
  packages : List (String × String)
  packageDeps : List (String × List String)
  workspace : List String
  calls : List (DepK × String)
deriving Repr

/-- Key-overwriting insertion into a JSON record (the lockfile collaborator's
insert operations). -/
def insertRec (l : List (String × α)) (k : String) (v : α) : List (String × α) :=
  l.filter (fun e => e.1 != k) ++ [(k, v)]

/-- The target chosen for a child edge:
`update?.constrainted ?? dep.constraint`. -/
def childTarget (R : Registry) (dep : DepK) : String :=
  ((R.update dep).bind fun u => u.constrainted).getD dep.constraint

/-- The `for (const dep of deps)` loop of `insertPackage`: clears the child's
path and recurses (through `f`, the recursive insertion at the remaining
depth) with `update?.constrainted ?? dep.constraint` as the child's target. -/
def insertLoop (R : Registry) (f : LockSt → DepK → String → Option LockSt) :
    LockSt → List DepK → Option LockSt
  | st, [] => some st
  | st, d :: ds =>
    let d' := { d with path := "" }
    match f st d' (childTarget R d') with
    | none => none
    | some st' => insertLoop R f st' ds

/-- Embedding of `insertPackage` (newest lockfile revision): registers the
requirement → identifier specifier mapping, fetches and inserts the package's
integrity, records its dependency edges, and recurses into every child with
the child's own re-resolved target. The source recursion is unbounded; `fuel`
counts the remaining recursion depth, `none` meaning the bound was hit. -/
def insertPackage (R : Registry) : Nat → LockSt → DepK → String → Option LockSt
  | 0, _, _, _ => none
  | Nat.succ n, st, request, target =>
    let identifier : DepK := { request with constraint := target }
    let st1 :=
      { st with
        specifiers := insertRec st.specifiers (stringifyK request) (stringifyK identifier),
        calls := st.calls ++ [(request, target)] }
    let specifier := stringifyNC identifier
    let st2 := { st1 with packages := insertRec st1.packages specifier (R.integrity identifier) }
    let deps := R.dependencies identifier
    let st3 :=
      { st2 with
        packageDeps := insertRec st2.packageDeps specifier (deps.map stringifyKNC) }
    insertLoop R (insertPackage R n) st3 deps

/-- Embedding of `createPackageLock` (the `createLock` path for `jsr`/`npm`
dependencies): fresh lockfile with the dependency as workspace root, then the
recursive insertion. -/
def createPackageLock (R : Registry) (fuel : Nat) (dependency : DepK)
    (target : String) : Option LockSt :=
  let dependency := { dependency with path := "" }
  let st : LockSt :=
    { specifiers := [], packages := [], packageDeps := [],
      workspace := [stringifyK dependency], calls := [] }
  insertPackage R fuel st dependency target

/-! ## Concrete instances used as test vectors and counterexamples -/

/-- A jsr dependency of the resolver schema with an explicit constraint. -/
def jsrDep (name constraint : String) : Dependency :=
  { name, version := some constraint, type := .jsr, protocol := "jsr:" }

/-- Counterexample dependency for the resolver ordering invariant: its
constraint admits a prerelease. -/
def resolverCexDep : Dependency :=
  jsrDep "@x/y" "^2.0.0-alpha"

/-- Registry version list for the resolver ordering counterexample. -/
def resolverCexVersions : List String :=
  ["1.0.0", "2.0.0-alpha"]

/-- The decision the resolver produces on the ordering counterexample. -/
def resolverCexUpdate : UpdateSem :=
  { latest := ⟨2, 0, 0, [.str ['a', 'l', 'p', 'h', 'a']]⟩,
    constrainted := some ⟨2, 0, 0, [.str ['a', 'l', 'p', 'h', 'a']]⟩,
    released := some ⟨1, 0, 0, []⟩ }

/-- A jsr dependency parsed from a specifier with no version constraint. -/
def unconstrainedDep : Dependency :=
  { name := "@std/bytes", type := .jsr, protocol := "jsr:" }

/-- The decision the resolver produces for `unconstrainedDep` on the version
list `["1.0.0"]`. -/
def unconstrainedUpdate : DependencyUpdate :=
  { latest := "1.0.0", released := some "1.0.0" }

/-- The parsed form of the spec's scenario specifier
`jsr:@std/fs@^0.222.0/exists`. -/
def depStdFs : Dependency :=
  { name := "@std/fs", version := some "^0.222.0",
    entrypoint := some "/exists", type := .jsr, protocol := "jsr:" }

/-- A direct-URL dependency (the spec's running example). -/
def remoteCexDep : Dependency :=
  { name := "deno.land/std", version := some "0.200.0",
    entrypoint := some "/bytes/copy.ts", type := .remote, protocol := "https:" }

/-- A `HEAD` response that was not redirected. -/
def noRedirect : RemoteRes :=
  { redirected := false, url := "" }

/-- A jsr dependency of the lock-graph-builder schema. -/
def regDep (name constraint : String) : DepK :=
  { kind := .jsr, name, constraint, path := "" }

/-- A diamond-shaped registry: `a` depends on `b` and `c`, which both depend
on `d`. Every constraint re-resolves to version `1.0.0`. -/
def diamondRegistry : Registry where
  update d :=
    if d.name = "a" then none
    else some { latest := "1.0.0", constrainted := some "1.0.0" }
  dependencies d :=
    if d.name = "a" then [regDep "b" "^1.0.0", regDep "c" "^1.0.0"]
    else if d.name = "b" then [regDep "d" "^1.0.0"]
    else if d.name = "c" then [regDep "d" "^1.0.0"]
    else []
  integrity _ := "sha"

/-- The root dependency of the diamond registry. -/
def diamondRoot : DepK :=
  regDep "a" "^1.0.0"

/-- A cyclic registry: every package depends on `self`. -/
def cycleRegistry : Registry where
  update _ := none
  dependencies _ := [regDep "self" "^1.0.0"]
  integrity _ := "sha"

/-- The root dependency of the cyclic registry. -/
def cycleDep : DepK :=
  regDep "self" "^1.0.0"

/-- The empty lockfile state. -/
def emptyLockSt : LockSt :=
  { specifiers := [], packages := [], packageDeps := [], workspace := [],
    calls := [] }

/-- A registry in which `a`'s only child `b` has an update decision without a
constraint-satisfying version. -/
def noConstraintedRegistry : Registry where
  update d :=
    if d.name = "b" then some { latest := "9.9.9" } else none
  dependencies d :=
    if d.name = "a" then [regDep "b" "^1.0.0"] else []
  integrity _ := "sha"

/-- Extracted partial lock of dependency `A` (before its update): it owns the
entries `@x/a@1.0.0` and — shared with `B` — `@x/p@1.0.0`. -/
def lockEntryA : LockPart where
  specifier := "jsr:@x/a@^1.0.0"
  data :=
    { version := "3",
      packages := some
        { specifiers := [("jsr:@x/a@^1.0.0", "jsr:@x/a@1.0.0")],
          jsr := some
            [("@x/a@1.0.0", { integrity := "ia" }),
             ("@x/p@1.0.0", { integrity := "ip" })] },
      remote := some [] }

/-- Extracted partial lock of the untouched dependency `B`: it still
references `@x/p@1.0.0`. -/
def lockEntryB : LockPart where
  specifier := "jsr:@x/b@^1.0.0"
  data :=
    { version := "3",
      packages := some
        { specifiers := [("jsr:@x/b@^1.0.0", "jsr:@x/b@1.0.0")],
          jsr := some
            [("@x/b@1.0.0", { integrity := "ib" }),
             ("@x/p@1.0.0", { integrity := "ip" })] },
      remote := some [] }

/-- The omit keys computed for updating `A` against `[A, B]`: only
`@x/a@1.0.0` is owned by `A` alone; the shared `@x/p@1.0.0` is kept. -/
def cexOmitKeys : LockFileOmitKeys :=
  { jsr := ["@x/a@1.0.0"], npm := [], remote := [] }

/-! ## Comparator laws

The maximum computations of the resolver are only meaningful because the
version comparison is an oriented, transitive comparator. We establish the
`Batteries` comparator classes for `svCmp` compositionally. -/

theorem ncmp_symm (a b : Nat) : (ncmp a b).swap = ncmp b a := by
  unfold ncmp
  split_ifs <;> first | rfl | omega

theorem ncmp_le_trans {a b c : Nat} (h1 : ncmp a b ≠ .gt) (h2 : ncmp b c ≠ .gt) :
    ncmp a c ≠ .gt := by
  unfold ncmp at *
  split_ifs at * <;> simp_all <;> omega

instance : Batteries.TransCmp ncmp where
  symm := ncmp_symm
  le_trans := ncmp_le_trans

instance (cmp : β → β → Ordering) (f : α → β) [Batteries.TransCmp cmp] :
    Batteries.TransCmp (onFun cmp f) where
  symm a b := Batteries.OrientedCmp.symm (f a) (f b)
  le_trans h1 h2 := @Batteries.TransCmp.le_trans _ cmp _ _ _ _ h1 h2

theorem lex2_symm (f g : α → α → Ordering) [Batteries.OrientedCmp f]
    [Batteries.OrientedCmp g] (a b : α) : (lex2 f g a b).swap = lex2 f g b a := by
  unfold lex2
  rw [Ordering.swap_then, Batteries.OrientedCmp.symm, Batteries.OrientedCmp.symm]

theorem lex2_le_trans (f g : α → α → Ordering) [Batteries.TransCmp f]
    [Batteries.TransCmp g] {x y z : α} (h1 : lex2 f g x y ≠ .gt)
    (h2 : lex2 f g y z ≠ .gt) : lex2 f g x z ≠ .gt := by
  unfold lex2 at *
  rcases hxy : f x y with _ | _ | _ <;> rcases hyz : f y z with _ | _ | _ <;>
      simp [hxy, hyz, Ordering.then] at h1 h2 ⊢
  · rw [show f x z = .lt from Batteries.TransCmp.lt_trans hxy hyz]; simp [Ordering.then]
  · rw [show f x z = .lt from (Batteries.TransCmp.cmp_congr_right hyz) ▸ hxy]
    simp [Ordering.then]
  · rw [show f x z = .lt from (Batteries.TransCmp.cmp_congr_left hxy) ▸ hyz]
    simp [Ordering.then]
  · rw [show f x z = .eq from (Batteries.TransCmp.cmp_congr_left hxy).trans hyz]
    simp [Ordering.then]
    exact Batteries.TransCmp.le_trans h1 h2

instance (f g : α → α → Ordering) [Batteries.TransCmp f] [Batteries.TransCmp g] :
    Batteries.TransCmp (lex2 f g) where
  symm := lex2_symm f g
  le_trans := lex2_le_trans f g

theorem listLex_symm (cmp : α → α → Ordering) [Batteries.OrientedCmp cmp] :
    ∀ (a b : List α), (listLex cmp a b).swap = listLex cmp b a := by
  intro a
  induction a with
  | nil => intro b; cases b <;> rfl
  | cons x xs ih =>
    intro b
    cases b with
    | nil => rfl
    | cons y ys =>
      simp only [listLex, Ordering.swap_then, Batteries.OrientedCmp.symm, ih]

theorem listLex_le_trans (cmp : α → α → Ordering) [Batteries.TransCmp cmp] :
    ∀ {x y z : List α}, listLex cmp x y ≠ .gt → listLex cmp y z ≠ .gt →
      listLex cmp x z ≠ .gt := by
  intro x
  induction x with
  | nil => intro y z _ _; cases z <;> simp [listLex]
  | cons a as ih =>
    intro y z h1 h2
    cases y with
    | nil => exact absurd rfl h1
    | cons b bs =>
      cases z with
      | nil => exact absurd rfl h2
      | cons c cs =>
        simp only [listLex] at h1 h2 ⊢
        rcases hab : cmp a b with _ | _ | _ <;> rcases hbc : cmp b c with _ | _ | _ <;>
            simp [hab, hbc, Ordering.then] at h1 h2 ⊢
        · rw [show cmp a c = .lt from Batteries.TransCmp.lt_trans hab hbc]
          simp [Ordering.then]
        · rw [show cmp a c = .lt from (Batteries.TransCmp.cmp_congr_right hbc) ▸ hab]
          simp [Ordering.then]
        · rw [show cmp a c = .lt from (Batteries.TransCmp.cmp_congr_left hab) ▸ hbc]
          simp [Ordering.then]
        · rw [show cmp a c = .eq from (Batteries.TransCmp.cmp_congr_left hab).trans hbc]
          simp [Ordering.then]
          exact ih h1 h2

instance (cmp : α → α → Ordering) [Batteries.TransCmp cmp] :
    Batteries.TransCmp (listLex cmp) where
  symm := listLex_symm cmp
  le_trans := listLex_le_trans cmp

instance : Batteries.TransCmp idCmp where
  symm a b := by
    cases a <;> cases b <;>
      first
        | rfl
        | exact ncmp_symm ..
        | exact listLex_symm _ ..
  le_trans {a b c} h1 h2 := by
    cases a <;> cases b <;> cases c <;> simp only [idCmp] at h1 h2 ⊢ <;>
      first
        | exact absurd rfl h1
        | exact absurd rfl h2
        | exact ncmp_le_trans h1 h2
        | exact listLex_le_trans _ h1 h2
        | decide

instance : Batteries.TransCmp preCmp where
  symm a b := by
    cases a <;> cases b <;>
      first
        | rfl
        | exact listLex_symm idCmp ..
  le_trans {a b c} h1 h2 := by
    cases a <;> cases b <;> cases c <;> simp only [preCmp] at h1 h2 ⊢ <;>
      first
        | exact absurd rfl h1
        | exact absurd rfl h2
        | exact listLex_le_trans idCmp h1 h2
        | decide

instance : Batteries.TransCmp svCmp := by
  unfold svCmp
  infer_instance

/-! ## Properties of `maxWith` -/

theorem maxStep_isSome (cmp : α → α → Ordering) (acc : Option α) (x : α) :
    (maxStep cmp acc x).isSome := by
  cases acc
  · simp [maxStep]
  · simp only [maxStep]
    split <;> simp

theorem foldl_maxStep_isSome (cmp : α → α → Ordering) (l : List α) :
    ∀ acc : Option α, acc.isSome → (l.foldl (maxStep cmp) acc).isSome := by
  induction l with
  | nil => intro acc h; exact h
  | cons x xs ih => intro acc _; exact ih _ (maxStep_isSome cmp acc x)

theorem maxWith_isSome (cmp : α → α → Ordering) (l : List α) (h : l ≠ []) :
    (maxWith l cmp).isSome := by
  cases l with
  | nil => exact absurd rfl h
  | cons x xs =>
    show (List.foldl (maxStep cmp) (maxStep cmp none x) xs).isSome
    exact foldl_maxStep_isSome cmp xs _ (maxStep_isSome cmp none x)

theorem foldl_maxStep_mem (cmp : α → α → Ordering) (l : List α) :
    ∀ (acc : Option α) (m : α), l.foldl (maxStep cmp) acc = some m →
      m ∈ l ∨ acc = some m := by
  induction l with
  | nil => intro acc m h; exact Or.inr h
  | cons x xs ih =>
    intro acc m h
    rcases ih (maxStep cmp acc x) m h with hm | hm
    · exact Or.inl (List.mem_cons_of_mem x hm)
    · cases acc with
      | none =>
        simp only [maxStep] at hm
        exact Or.inl (by rw [← Option.some.inj hm]; exact List.mem_cons_self x xs)
      | some a =>
        simp only [maxStep] at hm
        split at hm
        · exact Or.inl (by rw [← Option.some.inj hm]; exact List.mem_cons_self x xs)
        · exact Or.inr hm

theorem maxWith_mem {cmp : α → α → Ordering} {l : List α} {m : α}
    (h : maxWith l cmp = some m) : m ∈ l := by
  rcases foldl_maxStep_mem cmp l none m h with hm | hm
  · exact hm
  · exact Option.noConfusion hm

theorem foldl_maxStep_le (cmp : α → α → Ordering) [Batteries.TransCmp cmp]
    (l : List α) :
    ∀ (acc : Option α) (m : α), l.foldl (maxStep cmp) acc = some m →
      (∀ x ∈ l, cmp x m ≠ .gt) ∧ (∀ a, acc = some a → cmp a m ≠ .gt) := by
  induction l with
  | nil =>
    intro acc m h
    refine ⟨by simp, fun a ha => ?_⟩
    rw [ha] at h
    rw [Option.some.inj h]
    have hrefl : cmp m m = .eq := Batteries.OrientedCmp.cmp_refl
    simp [hrefl]
  | cons x xs ih =>
    intro acc m h
    obtain ⟨hxs, hacc⟩ := ih (maxStep cmp acc x) m h
    have hx : cmp x m ≠ .gt ∧ ∀ a, acc = some a → cmp a m ≠ .gt := by
      cases acc with
      | none => exact ⟨hacc x rfl, by simp⟩
      | some a =>
        simp only [maxStep] at hacc
        by_cases hxa : cmp x a = .gt
        · rw [if_pos hxa] at hacc
          have hxm := hacc x rfl
          refine ⟨hxm, fun b hb => ?_⟩
          rw [← Option.some.inj hb]
          exact Batteries.TransCmp.le_trans (Batteries.TransCmp.gt_asymm hxa) hxm
        · rw [if_neg hxa] at hacc
          have ham := hacc a rfl
          refine ⟨Batteries.TransCmp.le_trans hxa ham, fun b hb => ?_⟩
          rw [← Option.some.inj hb]
          exact ham
    refine ⟨fun y hy => ?_, hx.2⟩
    rcases List.mem_cons.1 hy with rfl | hy
    · exact hx.1
    · exact hxs y hy

theorem maxWith_le {cmp : α → α → Ordering} [Batteries.TransCmp cmp]
    {l : List α} {m : α} (h : maxWith l cmp = some m) :
    ∀ x ∈ l, cmp x m ≠ .gt :=
  (foldl_maxStep_le cmp l none m h).1

/-! ## Properties of the specifier parser -/

theorem lastAtSplit_append {b n r : List Char} (a : List Char)
    (h : lastAtSplit b = some (n, r)) :
    lastAtSplit (a ++ b) = some (a ++ n, r) := by
  induction a with
  | nil => simpa using h
  | cons c cs ih => simp [lastAtSplit, ih]

theorem lastAtSplit_none {l : List Char} (h : '@' ∉ l) : lastAtSplit l = none := by
  induction l with
  | nil => rfl
  | cons c cs ih =>
    have hc : ¬ c = '@' := fun hcc => h (hcc ▸ List.mem_cons_self c cs)
    have hcs : '@' ∉ cs := fun hm => h (List.mem_cons_of_mem c hm)
    simp [lastAtSplit, ih hcs, hc]

theorem lastAtSplit_cons_at {rest : List Char} (hne : rest ≠ [])
    (hh : rest.head? ≠ some '/') (hna : '@' ∉ rest) :
    lastAtSplit ('@' :: rest) = some ([], rest) := by
  cases rest with
  | nil => exact absurd rfl hne
  | cons h t =>
    have hh' : ¬ h = '/' := by simpa using hh
    have h0 : lastAtSplit (h :: t) = none := lastAtSplit_none hna
    conv_lhs => rw [lastAtSplit]
    rw [h0]
    simp [hh']

theorem takeWhile_append_of (p : α → Bool) (a b : List α)
    (ha : ∀ x ∈ a, p x = true) (hb : ∀ x, b.head? = some x → p x = false) :
    (a ++ b).takeWhile p = a ∧ (a ++ b).dropWhile p = b := by
  induction a with
  | nil =>
    cases b with
    | nil => simp
    | cons x t =>
      have := hb x rfl
      simp [List.takeWhile_cons, List.dropWhile_cons, this]
  | cons x xs ih =>
    have hx := ha x (List.mem_cons_self x xs)
    have hrec := ih fun y hy => ha y (List.mem_cons_of_mem x hy)
    simp [List.takeWhile_cons, List.dropWhile_cons, hx, hrec.1, hrec.2]

theorem matchBody_eq (nm constraint sub : List Char)
    (hnm : nm ≠ []) (hc : constraint ≠ []) (hcA : '@' ∉ constraint)
    (hcS : '/' ∉ constraint) (hsA : '@' ∉ sub)
    (hs : sub = [] ∨ sub.head? = some '/') :
    matchBody (nm ++ '@' :: (constraint ++ sub)) = some (nm, constraint, sub) := by
  have hrest_ne : constraint ++ sub ≠ [] := by
    cases constraint with
    | nil => exact absurd rfl hc
    | cons c t => simp
  have hrest_hd : (constraint ++ sub).head? ≠ some '/' := by
    cases constraint with
    | nil => exact absurd rfl hc
    | cons c t =>
      have : c ≠ '/' := fun hcc => hcS (hcc ▸ List.mem_cons_self c t)
      simpa using this
  have hna : '@' ∉ constraint ++ sub := by
    intro hm
    rcases List.mem_append.1 hm with hm | hm
    · exact hcA hm
    · exact hsA hm
  have h1 := lastAtSplit_cons_at hrest_ne hrest_hd hna
  have h2 := lastAtSplit_append nm h1
  rw [List.append_nil] at h2
  have htw := takeWhile_append_of (fun c => decide (c ≠ '/')) constraint sub
    (fun x hx => by
      have hxs : x ≠ '/' := fun hxx => hcS (hxx ▸ hx)
      simpa using hxs)
    (fun x hx => by
      rcases hs with hs | hs
      · rw [hs] at hx; exact Option.noConfusion hx
      · rw [hs] at hx; rw [Option.some.inj hx]; simp)
  unfold matchBody
  rw [h2]
  simp only [hnm, if_neg, htw.1, htw.2]
  simp [hnm]

theorem stripSlash_of {l : List Char} (h : l.head? ≠ some '/') :
    stripSlash l = l := by
  cases l with
  | nil => rfl
  | cons c t =>
    have hc : ¬ c = '/' := by simpa using h
    simp [stripSlash, hc]

theorem splitUrl_proto (k : SchemeK) (rest : List Char) :
    splitUrl (protoPrefixL k ++ rest) = some (protoStr k, schemeType k, rest) := by
  cases k <;> rfl

theorem parse_mkSpec (k : SchemeK) (slash : Bool) (name constraint sub : List Char)
    (hn : name ≠ []) (hn2 : name.head? ≠ some '/')
    (hc : constraint ≠ []) (hcA : '@' ∉ constraint) (hcS : '/' ∉ constraint)
    (hsA : '@' ∉ sub) (hs : sub = [] ∨ sub.head? = some '/') :
    parse (mkSpec k slash name constraint sub) =
      some { name := String.mk name, version := some (String.mk constraint),
             entrypoint := if sub.isEmpty then none else some (String.mk sub),
             type := schemeType k, protocol := protoStr k } := by
  have hnm : (if slash then ['/'] else []) ++ name ≠ [] := by
    cases slash <;> simp [hn]
  have hm := matchBody_eq ((if slash then ['/'] else []) ++ name) constraint sub
    hnm hc hcA hcS hsA hs
  rw [List.append_assoc] at hm
  have hstrip : stripSlash ((if slash then ['/'] else []) ++ name) = name := by
    cases slash with
    | false => simpa using stripSlash_of hn2
    | true => rfl
  unfold parse mkSpec
  rw [show (String.mk (mkSpecL k slash name constraint sub)).data =
    mkSpecL k slash name constraint sub from rfl]
  unfold mkSpecL
  rw [splitUrl_proto]
  show some (parseBodyDep (protoStr k) (schemeType k)
    ((if slash then ['/'] else []) ++ (name ++ '@' :: (constraint ++ sub)))) = _
  unfold parseBodyDep
  rw [hm]
  simp only [hstrip]

theorem stringify_parsed (k : SchemeK) (name constraint sub : List Char) :
    stringify { name := String.mk name, version := some (String.mk constraint),
                entrypoint := if sub.isEmpty then none else some (String.mk sub),
                type := schemeType k, protocol := protoStr k } =
    mkSpec k false name constraint sub := by
  apply String.ext
  cases k <;> cases sub <;>
    simp [stringify, mkSpec, mkSpecL, protoStr, protoPrefixL, schemeType,
      String.data_append]

/-- Evaluation of `increaseImpl` on a single comparator set holding a lower
(`>=`) and an upper (`<`) bound that the target does not satisfy: the result
depends only on the constraint's leading operator character and the target. -/
theorem increaseImpl_bounds (c v : String) (x y t : SemV)
    (hc : parseRangeL c.data = some [[⟨some .ge, x⟩, ⟨some .lt, y⟩]])
    (hv : parseSemVL v.data = some t)
    (hsat : satisfiesRange t [[⟨some .ge, x⟩, ⟨some .lt, y⟩]] = false) :
    increaseImpl c v =
      if c.data.head? = some '^' then
        some (if t.major ≠ 0 then "^" ++ toString t.major ++ ".0.0"
          else if t.minor ≠ 0 then "^0." ++ toString t.minor ++ ".0"
          else "^0.0." ++ toString t.patch)
      else if c.data.head? = some '~' then
        some (if t.major ≠ 0 then
            "~" ++ toString t.major ++ "." ++ toString t.minor ++ ".0"
          else
            "~" ++ toString t.major ++ "." ++ toString t.minor ++ "." ++
              toString t.patch)
      else none := by
  unfold increaseImpl
  rw [hc]
  simp only [hv, hsat, Bool.false_eq_true, if_false, List.find?]
  rfl

/-! ## Properties of the merge engine's records -/

theorem recKeys_omitRec_mem {l : List (String × α)} {ks : List String}
    {key : String} (hk : key ∈ recKeys l) (hn : key ∉ ks) :
    key ∈ recKeys (omitRec l ks) := by
  unfold recKeys at hk ⊢
  obtain ⟨e, he, heq⟩ := List.mem_map.1 hk
  refine List.mem_map.2 ⟨e, List.mem_filter.2 ⟨he, ?_⟩, heq⟩
  simp only [List.any_eq_true, beq_iff_eq, decide_eq_true_eq]
  rintro ⟨k, hkk, rfl⟩
  exact hn (heq ▸ hkk)

theorem recKeys_mergeRec_left {f : α → α → α} {a b : List (String × α)}
    {key : String} (h : key ∈ recKeys a) : key ∈ recKeys (mergeRec f a b) := by
  unfold recKeys at h ⊢
  obtain ⟨e, he, heq⟩ := List.mem_map.1 h
  have hfst : ((match List.lookup e.1 b with
      | some w => (e.1, f e.2 w)
      | none => e) : String × α).1 = e.1 := by
    cases List.lookup e.1 b <;> rfl
  exact List.mem_map.2
    ⟨_, List.mem_append_left _ (List.mem_map.2 ⟨e, he, rfl⟩), by rw [hfst, heq]⟩

theorem writeStep_jsr_preserved (original patch : LockFileJson)
    (ks : LockFileOmitKeys) (key : String)
    (hko : key ∈ jsrKeysOf original) (hnot : key ∉ ks.jsr) :
    key ∈ jsrKeysOf (writeToLockfileStep original patch ks) := by
  rcases ho : original.packages with _ | op
  · rw [jsrKeysOf, ho] at hko
    simp [recKeys] at hko
  have hko' : key ∈ recKeys (op.jsr.getD []) := by
    rw [jsrKeysOf, ho] at hko
    simpa using hko
  rcases hpp : patch.packages with _ | pp
  · rcases hpr : patch.remote with _ | pr <;>
      simp only [writeToLockfileStep, ho, hpp, hpr] <;>
      simpa [jsrKeysOf, ho] using hko'
  · rcases hpj : pp.jsr with _ | pj <;>
      rcases hpn : pp.npm with _ | pn <;>
      rcases hpr : patch.remote with _ | pr <;>
      simp only [writeToLockfileStep, ho, hpp, hpj, hpn, hpr] <;>
      simp only [jsrKeysOf, Option.bind] <;>
      first
        | simpa using hko'
        | simpa using recKeys_mergeRec_left (recKeys_omitRec_mem hko' hnot)

theorem writeStep_npm_preserved (original patch : LockFileJson)
    (ks : LockFileOmitKeys) (key : String)
    (hko : key ∈ npmKeysOf original) (hnot : key ∉ ks.npm) :
    key ∈ npmKeysOf (writeToLockfileStep original patch ks) := by
  rcases ho : original.packages with _ | op
  · rw [npmKeysOf, ho] at hko
    simp [recKeys] at hko
  have hko' : key ∈ recKeys (op.npm.getD []) := by
    rw [npmKeysOf, ho] at hko
    simpa using hko
  rcases hpp : patch.packages with _ | pp
  · rcases hpr : patch.remote with _ | pr <;>
      simp only [writeToLockfileStep, ho, hpp, hpr] <;>
      simpa [npmKeysOf, ho] using hko'
  · rcases hpj : pp.jsr with _ | pj <;>
      rcases hpn : pp.npm with _ | pn <;>
      rcases hpr : patch.remote with _ | pr <;>
      simp only [writeToLockfileStep, ho, hpp, hpj, hpn, hpr] <;>
      simp only [npmKeysOf, Option.bind] <;>
      first
        | simpa using hko'
        | simpa using recKeys_mergeRec_left (recKeys_omitRec_mem hko' hnot)

theorem writeStep_remote_preserved (original patch : LockFileJson)
    (ks : LockFileOmitKeys) (key : String)
    (hko : key ∈ remoteKeysOf original) (hnot : key ∉ ks.remote) :
    key ∈ remoteKeysOf (writeToLockfileStep original patch ks) := by
  have hko' : key ∈ recKeys (original.remote.getD []) := hko
  rcases hpr : patch.remote with _ | pr
  · rcases ho : original.packages with _ | op <;>
      rcases hpp : patch.packages with _ | pp <;>
      simp only [writeToLockfileStep, ho, hpp, hpr] <;>
      simpa [remoteKeysOf] using hko'
  · rcases ho : original.packages with _ | op <;>
      rcases hpp : patch.packages with _ | pp <;>
      simp only [writeToLockfileStep, ho, hpp, hpr] <;>
      simp only [remoteKeysOf] <;>
      simpa using recKeys_mergeRec_left (recKeys_omitRec_mem hko' hnot)

/-! ## Call log of the lock graph builder -/

theorem insertLoop_calls (R : Registry)
    (f : LockSt → DepK → String → Option LockSt)
    (hf : ∀ st d t st', f st d t = some st' →
      ∃ tail, st'.calls = st.calls ++ (d, t) :: tail ∧
        ∀ e ∈ tail, e.2 = childTarget R e.1) :
    ∀ (ds : List DepK) (st st' : LockSt), insertLoop R f st ds = some st' →
      ∃ tail, st'.calls = st.calls ++ tail ∧
        ∀ e ∈ tail, e.2 = childTarget R e.1 := by
  intro ds
  induction ds with
  | nil =>
    intro st st' h
    have : st = st' := Option.some.inj h
    subst this
    exact ⟨[], by simp, by simp⟩
  | cons d ds ih =>
    intro st st' h
    simp only [insertLoop] at h
    rcases hf0 : f st { d with path := "" }
        (childTarget R { d with path := "" }) with _ | st1
    · rw [hf0] at h
      exact Option.noConfusion h
    · rw [hf0] at h
      obtain ⟨tail1, hc1, hg1⟩ := hf st _ _ st1 hf0
      obtain ⟨tail2, hc2, hg2⟩ := ih st1 st' h
      refine ⟨(({ d with path := "" }, childTarget R { d with path := "" }) ::
        tail1) ++ tail2, ?_, ?_⟩
      · rw [hc2, hc1]
        simp
      · intro e he
        rcases List.mem_append.1 he with he | he
        · rcases List.mem_cons.1 he with rfl | he
          · rfl
          · exact hg1 e he
        · exact hg2 e he

theorem insertPackage_calls (R : Registry) :
    ∀ (n : Nat) (st : LockSt) (d : DepK) (t : String) (st' : LockSt),
      insertPackage R n st d t = some st' →
      ∃ tail, st'.calls = st.calls ++ (d, t) :: tail ∧
        ∀ e ∈ tail, e.2 = childTarget R e.1 := by
  intro n
  induction n with
  | zero => intro st d t st' h; exact Option.noConfusion h
  | succ n ih =>
    intro st d t st' h
    simp only [insertPackage] at h
    obtain ⟨tail, hc, hg⟩ := insertLoop_calls R (insertPackage R n) ih _ _ _ h
    refine ⟨tail, ?_, hg⟩
    rw [hc]
    simp

/-! ## Claim theorems -/

/-- C3. Idempotence of `increase`: whenever the constraint parses to a single
comparator set and the version already satisfies it, `increase` returns the
constraint string verbatim. -/
theorem increase_idempotence (c v : String) (r : RangeSem) (t : SemV)
    (hc : parseRangeL c.data = some r) (hlen : r.length = 1)
    (hv : parseSemVL v.data = some t) (hsat : satisfiesRange t r = true) :
    increase c v = some c := by
  obtain ⟨set, rfl⟩ := List.length_eq_one.1 hlen
  simp [increase, increaseImpl, hc, hv, hsat]

/-- Witness for C3 at `increase("^0.1.1", "0.1.2") = "^0.1.1"`. -/
theorem increase_idempotence_witness :
    increase "^0.1.1" "0.1.2" = some "^0.1.1" :=
  increase_idempotence "^0.1.1" "0.1.2" [caretSet ⟨0, 1, 1, []⟩] ⟨0, 1, 2, []⟩
    (by rfl) (by rfl) (by rfl) (by rfl)

/-- C2. Truncation of `increase` on unsatisfied constraints: a caret
constraint moves to the caret of the target truncated at the leftmost
non-zero target component, a tilde constraint to the tilde of
`major.minor.0` (for non-zero major, else `0.minor.patch`). -/
theorem increase_truncation :
    (∀ (restC : List Char) (v : String) (cv t : SemV),
      parseSemVL restC = some cv →
      parseSemVL v.data = some t →
      satisfiesRange t [caretSet cv] = false →
      increase (String.mk ('^' :: restC)) v =
        some (if t.major ≠ 0 then "^" ++ toString t.major ++ ".0.0"
          else if t.minor ≠ 0 then "^0." ++ toString t.minor ++ ".0"
          else "^0.0." ++ toString t.patch)) ∧
    (∀ (restT : List Char) (v : String) (cv t : SemV),
      parseSemVL restT = some cv →
      parseSemVL v.data = some t →
      satisfiesRange t [tildeSet cv] = false →
      increase (String.mk ('~' :: restT)) v =
        some (if t.major ≠ 0 then
            "~" ++ toString t.major ++ "." ++ toString t.minor ++ ".0"
          else
            "~" ++ toString t.major ++ "." ++ toString t.minor ++ "." ++
              toString t.patch)) := by
  constructor
  · intro restC v cv t hc hv hsat
    obtain ⟨up, hset⟩ : ∃ up, caretSet cv = [⟨some .ge, cv⟩, ⟨some .lt, up⟩] := by
      unfold caretSet
      split_ifs <;> exact ⟨_, rfl⟩
    have hrange : parseRangeL (String.mk ('^' :: restC)).data =
        some [[⟨some .ge, cv⟩, ⟨some .lt, up⟩]] := by
      show (parseSemVL restC).map (fun t => [caretSet t]) = _
      rw [hc]
      show some [caretSet cv] = _
      rw [hset]
    rw [hset] at hsat
    have h := increaseImpl_bounds (String.mk ('^' :: restC)) v cv up t hrange hv
      hsat
    rw [increase, h]
    simp
  · intro restT v cv t hc hv hsat
    have hrange : parseRangeL (String.mk ('~' :: restT)).data =
        some [[⟨some .ge, cv⟩, ⟨some .lt, ⟨cv.major, cv.minor + 1, 0, []⟩⟩]] := by
      show (parseSemVL restT).map (fun t => [tildeSet t]) = _
      rw [hc]
      rfl
    rw [show [tildeSet cv] =
        [[⟨some .ge, cv⟩, ⟨some .lt, ⟨cv.major, cv.minor + 1, 0, []⟩⟩]] from rfl]
      at hsat
    have h := increaseImpl_bounds (String.mk ('~' :: restT)) v cv
      ⟨cv.major, cv.minor + 1, 0, []⟩ t hrange hv hsat
    rw [increase, h]
    simp

/-- Witness for C2: the spec's own edge cases
`increase("^1.1.0","2.1.0") = "^2.0.0"` and
`increase("~1.0.0","2.1.0") = "~2.1.0"`. -/
theorem increase_truncation_witness :
    increase "^1.1.0" "2.1.0" = some "^2.0.0" ∧
    increase "~1.0.0" "2.1.0" = some "~2.1.0" := by
  constructor
  · have h := increase_truncation.1 "1.1.0".data "2.1.0" ⟨1, 1, 0, []⟩
      ⟨2, 1, 0, []⟩ (by rfl) (by rfl) (by rfl)
    simpa using h
  · have h := increase_truncation.2 "1.0.0".data "2.1.0" ⟨1, 0, 0, []⟩
      ⟨2, 1, 0, []⟩ (by rfl) (by rfl) (by rfl)
    simpa using h

/-- C4 (amended). Resolver ordering: `released ≤ latest` and
`constrainted ≤ latest` always hold; `constrainted ≤ released` holds whenever
the constraint-satisfying version is itself not a prerelease. -/
theorem resolver_ordering (dep : Dependency) (versions : List String)
    (u : UpdateSem) (h : getPackageUpdateSem dep versions = some u) :
    (∀ r, u.released = some r → svCmp r u.latest ≠ .gt) ∧
    (∀ c, u.constrainted = some c → svCmp c u.latest ≠ .gt) ∧
    (∀ c, u.constrainted = some c → c.pre = [] →
      ∃ r, u.released = some r ∧ svCmp c r ≠ .gt) := by
  simp only [getPackageUpdateSem] at h
  generalize hsem : List.filterMap (fun s => parseSemVL s.data) versions = semvers at h
  split at h
  · exact Option.noConfusion h
  next latest hmax =>
    split at h
    · rw [← Option.some.inj h]
      refine ⟨fun r hr => ?_, by simp, by simp⟩
      have hmem : r ∈ semvers :=
        List.mem_of_mem_filter (maxWith_mem hr)
      exact maxWith_le hmax r hmem
    next ver hver =>
      rw [← Option.some.inj h]
      have hrel : ∀ r,
          maxWith (semvers.filter fun it => it.pre.isEmpty) svCmp = some r →
          svCmp r latest ≠ .gt := fun r hr =>
        maxWith_le hmax r (List.mem_of_mem_filter (maxWith_mem hr))
      have hconM : ∀ c,
          (parseRangeL ver.data).bind (fun r => maxSatisfying semvers r) =
            some c → c ∈ semvers := by
        intro c hcon
        obtain ⟨r0, -, hmax0⟩ := Option.bind_eq_some.1 hcon
        exact List.mem_of_mem_filter (maxWith_mem hmax0)
      refine ⟨hrel, fun c hcon => maxWith_le hmax c (hconM c hcon),
        fun c hcon hpre => ?_⟩
      have hcrel : c ∈ semvers.filter fun it => it.pre.isEmpty := by
        simp only [List.mem_filter]
        exact ⟨hconM c hcon, by simp [hpre]⟩
      obtain ⟨r, hr⟩ := Option.isSome_iff_exists.1
        (maxWith_isSome svCmp _ (List.ne_nil_of_mem hcrel))
      exact ⟨r, hr, maxWith_le hr c hcrel⟩

/-- Counterexample to C4 as stated: with constraint `^2.0.0-alpha` over the
registry versions `["1.0.0", "2.0.0-alpha"]`, the satisfying version
`2.0.0-alpha` is strictly above the released version `1.0.0`. -/
theorem resolver_ordering_cex :
    getPackageUpdateSem resolverCexDep resolverCexVersions =
      some resolverCexUpdate ∧
    resolverCexUpdate.constrainted = some ⟨2, 0, 0, [.str ['a', 'l', 'p', 'h', 'a']]⟩ ∧
    resolverCexUpdate.released = some ⟨1, 0, 0, []⟩ ∧
    svCmp ⟨2, 0, 0, [.str ['a', 'l', 'p', 'h', 'a']]⟩ ⟨1, 0, 0, []⟩ = .gt := by
  refine ⟨by rfl, by rfl, by rfl, by rfl⟩

/-- Witness for the amended C4 at the counterexample input. -/
theorem resolver_ordering_witness :
    (∀ r, resolverCexUpdate.released = some r →
      svCmp r resolverCexUpdate.latest ≠ .gt) ∧
    (∀ c, resolverCexUpdate.constrainted = some c →
      svCmp c resolverCexUpdate.latest ≠ .gt) ∧
    (∀ c, resolverCexUpdate.constrainted = some c → c.pre = [] →
      ∃ r, resolverCexUpdate.released = some r ∧ svCmp c r ≠ .gt) :=
  resolver_ordering resolverCexDep resolverCexVersions resolverCexUpdate
    (by rfl)

/-- C10. A dependency with no version constraint never receives a
`constrainted` field, and constraint matching happens only when the
constraint parses as a range. -/
theorem unconstrained_no_satisfying (dep : Dependency) (versions : List String)
    (u : DependencyUpdate) (h : getPackageUpdate dep versions = some u) :
    (dep.version = none → u.constrainted = none) ∧
    (∀ c, dep.version = some c → parseRangeL c.data = none →
      u.constrainted = none) := by
  obtain ⟨us, hus, rfl⟩ := Option.map_eq_some'.1 h
  simp only [getPackageUpdateSem] at hus
  split at hus
  · exact Option.noConfusion hus
  next latest hmax =>
    split at hus
    next hnone =>
      rw [← Option.some.inj hus]
      simp
    next ver hver =>
      rw [← Option.some.inj hus]
      refine ⟨fun hcon => (by rw [hver] at hcon; exact Option.noConfusion hcon),
        fun c hc hrange => ?_⟩
      rw [hver] at hc
      rw [← Option.some.inj hc] at hrange
      simp [hrange]

/-- Witness for C10 at the unconstrained dependency `jsr:@std/bytes` over the
version list `["1.0.0"]`. -/
theorem unconstrained_no_satisfying_witness :
    (unconstrainedDep.version = none → unconstrainedUpdate.constrainted = none) ∧
    (∀ c, unconstrainedDep.version = some c → parseRangeL c.data = none →
      unconstrainedUpdate.constrainted = none) :=
  unconstrained_no_satisfying unconstrainedDep ["1.0.0"] unconstrainedUpdate
    (by rfl)

/-- C7 (amended). Direct-URL no-redirect behaviour: when the `HEAD` probe is
not redirected, `getRemoteUpdate` resolves to no update decision at all
(`undefined` in the source, not an error and not the original version). -/
theorem remote_no_redirect (dep : Dependency) (res : RemoteRes)
    (h : res.redirected = false) : getRemoteUpdate dep res = none := by
  unfold getRemoteUpdate getRemoteLatestVersion
  simp [h]

/-- Witness for the amended C7 at a concrete non-redirected probe. -/
theorem remote_no_redirect_witness :
    getRemoteUpdate remoteCexDep noRedirect = none :=
  remote_no_redirect remoteCexDep noRedirect (by rfl)

/-- Counterexample to C7 as stated: on a non-redirected probe the resolver
returns no decision, in particular not a decision whose `latest` is the
dependency's original version `0.200.0`. -/
theorem remote_no_redirect_cex :
    getRemoteUpdate remoteCexDep noRedirect = none ∧
    ¬ ∃ u, getRemoteUpdate remoteCexDep noRedirect = some u ∧
      u.latest = "0.200.0" := by
  refine ⟨rfl, ?_⟩
  rintro ⟨u, hu, -⟩
  rw [show getRemoteUpdate remoteCexDep noRedirect = none from rfl] at hu
  exact Option.noConfusion hu

/-- C8 (amended). Specifier round-trip over the input grammar
`<scheme>:[/]<name>@<constraint>[/<subpath>]`: re-parsing the stringified
parse always reproduces the parse, and stringification reproduces the input
string exactly for every specifier without the tolerated leading slash (the
slash is dropped by `parse`, so those inputs only round-trip up to it). -/
theorem specifier_roundtrip (k : SchemeK) (slash : Bool)
    (name constraint sub : List Char) (dep : Dependency)
    (hn : name ≠ []) (hn2 : name.head? ≠ some '/')
    (hc : constraint ≠ []) (hcA : '@' ∉ constraint) (hcS : '/' ∉ constraint)
    (hsA : '@' ∉ sub) (hs : sub = [] ∨ sub.head? = some '/')
    (hp : parse (mkSpec k slash name constraint sub) = some dep) :
    parse (stringify dep) = parse (mkSpec k slash name constraint sub) ∧
    (slash = false → stringify dep = mkSpec k slash name constraint sub) := by
  have h1 := parse_mkSpec k slash name constraint sub hn hn2 hc hcA hcS hsA hs
  rw [hp] at h1
  have hdep := Option.some.inj h1
  subst hdep
  have hst := stringify_parsed k name constraint sub
  constructor
  · rw [hst, parse_mkSpec k false name constraint sub hn hn2 hc hcA hcS hsA hs,
      parse_mkSpec k slash name constraint sub hn hn2 hc hcA hcS hsA hs]
  · intro hsl
    subst hsl
    exact hst

/-- Witness for C8 at the spec's scenario specifier
`jsr:@std/fs@^0.222.0/exists`. -/
theorem specifier_roundtrip_witness :
    parse (stringify depStdFs) =
      parse (mkSpec .jsr false "@std/fs".data "^0.222.0".data "/exists".data) ∧
    (false = false → stringify depStdFs =
      mkSpec .jsr false "@std/fs".data "^0.222.0".data "/exists".data) :=
  specifier_roundtrip .jsr false "@std/fs".data "^0.222.0".data "/exists".data
    depStdFs (by decide) (by decide) (by decide) (by decide) (by decide)
    (by decide) (by decide) (by rfl)

/-- Counterexample to C8's exact-string conjunct: the tolerated leading-slash
specifier `jsr:/@std/testing@^0.222.0/bdd` stringifies back without the
slash. -/
theorem specifier_roundtrip_cex :
    (parse "jsr:/@std/testing@^0.222.0/bdd").map stringify =
      some "jsr:@std/testing@^0.222.0/bdd" ∧
    "jsr:@std/testing@^0.222.0/bdd" ≠ "jsr:/@std/testing@^0.222.0/bdd" :=
  ⟨rfl, by decide⟩

/-- C9 (amended). A specifier without an `@constraint` segment parses
successfully — with no version — for registry schemes exactly as for
direct-URL schemes; `parse` fails only on unrecognized protocols. -/
theorem unversioned_parse (k : SchemeK) (name : List Char) (hna : '@' ∉ name) :
    parse (String.mk (protoPrefixL k ++ name)) =
      some { name := String.mk name, version := none, entrypoint := none,
             type := schemeType k, protocol := protoStr k } := by
  unfold parse
  rw [show (String.mk (protoPrefixL k ++ name)).data =
    protoPrefixL k ++ name from rfl]
  rw [splitUrl_proto]
  show some (parseBodyDep (protoStr k) (schemeType k) name) = _
  unfold parseBodyDep
  rw [show matchBody name = none from by
    unfold matchBody
    rw [lastAtSplit_none hna]]

/-- Witness for the amended C9 at `npm:lodash` and at the unversioned remote
specifier `https://deno.land/std/assert/mod.ts`. -/
theorem unversioned_parse_witness :
    parse (String.mk (protoPrefixL .npm ++ "lodash".data)) =
      some { name := String.mk "lodash".data, version := none,
             entrypoint := none, type := .npm, protocol := "npm:" } ∧
    parse (String.mk (protoPrefixL .https ++
        "deno.land/std/assert/mod.ts".data)) =
      some { name := String.mk "deno.land/std/assert/mod.ts".data,
             version := none, entrypoint := none, type := .remote,
             protocol := "https:" } :=
  ⟨unversioned_parse .npm "lodash".data (by decide),
   unversioned_parse .https "deno.land/std/assert/mod.ts".data (by decide)⟩

/-- Counterexample to C9 as stated: the registry-scheme specifier
`jsr:@std/bytes` carries no constraint segment yet parses successfully. -/
theorem unversioned_parse_cex :
    parse "jsr:@std/bytes" =
      some { name := "@std/bytes", version := none, entrypoint := none,
             type := .jsr, protocol := "jsr:" } ∧
    parse "jsr:@std/bytes" ≠ none := by
  constructor
  · rfl
  · intro h
    rw [show parse "jsr:@std/bytes" =
      some { name := "@std/bytes", version := none, entrypoint := none,
             type := DepType.jsr, protocol := "jsr:" } from rfl] at h
    exact Option.noConfusion h

/-- C1. Merge reference-counting: for each namespace (`jsr`, `npm`,
`remote`), the omit keys computed for the updating dependency `A` are exactly
the keys of `A`'s own partial lock minus the keys appearing in any other
partial lock; consequently a lock entry still referenced by some other
dependency's partial lock is preserved across the merge step of
`writeToLockfile`. -/
theorem merge_reference_counting (spec : String) (locks : List LockPart)
    (A : LockPart) (ks : LockFileOmitKeys)
    (hA : locks.filter (fun it => it.specifier == spec) = [A])
    (h : createLockFileOmitKeys spec locks = some ks) :
    ((∀ key, key ∈ ks.jsr ↔ key ∈ jsrKeysOf A.data ∧
        ∀ p ∈ locks, p.specifier ≠ spec → key ∉ jsrKeysOf p.data) ∧
      (∀ key, key ∈ ks.npm ↔ key ∈ npmKeysOf A.data ∧
        ∀ p ∈ locks, p.specifier ≠ spec → key ∉ npmKeysOf p.data) ∧
      (∀ key, key ∈ ks.remote ↔ key ∈ remoteKeysOf A.data ∧
        ∀ p ∈ locks, p.specifier ≠ spec → key ∉ remoteKeysOf p.data)) ∧
    (∀ (original patch : LockFileJson) (key : String) (p : LockPart),
      p ∈ locks → p.specifier ≠ spec →
      (key ∈ jsrKeysOf p.data → key ∈ jsrKeysOf original →
        key ∈ jsrKeysOf (writeToLockfileStep original patch ks)) ∧
      (key ∈ npmKeysOf p.data → key ∈ npmKeysOf original →
        key ∈ npmKeysOf (writeToLockfileStep original patch ks)) ∧
      (key ∈ remoteKeysOf p.data → key ∈ remoteKeysOf original →
        key ∈ remoteKeysOf (writeToLockfileStep original patch ks))) := by
  unfold createLockFileOmitKeys at h
  rw [List.partition_eq_filter_filter, hA] at h
  have hks := (Option.some.inj h).symm
  have char : ∀ (keysOf : LockFileJson → List String) (key : String),
      (key ∈ (keysOf A.data).filter fun k =>
        ¬ (locks.filter fun it => !(it.specifier == spec)).any fun part =>
            (keysOf part.data).any fun it => it == k) ↔
      (key ∈ keysOf A.data ∧
        ∀ p ∈ locks, p.specifier ≠ spec → key ∉ keysOf p.data) := by
    intro keysOf key
    constructor
    · intro hk
      rw [List.mem_filter] at hk
      refine ⟨hk.1, fun p hp hps hkp => ?_⟩
      have h2 := hk.2
      simp only [decide_eq_true_eq] at h2
      apply h2
      rw [List.any_eq_true]
      refine ⟨p, List.mem_filter.2 ⟨hp, by simp [hps]⟩, ?_⟩
      rw [List.any_eq_true]
      exact ⟨key, hkp, by simp⟩
    · rintro ⟨hkA, hforall⟩
      refine List.mem_filter.2 ⟨hkA, ?_⟩
      simp only [decide_eq_true_eq, List.any_eq_true]
      rintro ⟨part, hpart, it, hit, heq⟩
      rw [List.mem_filter] at hpart
      have hps : part.specifier ≠ spec := by simpa using hpart.2
      exact hforall part hpart.1 hps
        (by rwa [show it = key from by simpa using heq] at hit)
  have char_jsr : ∀ key, key ∈ ks.jsr ↔ key ∈ jsrKeysOf A.data ∧
      ∀ p ∈ locks, p.specifier ≠ spec → key ∉ jsrKeysOf p.data := by
    intro key
    rw [hks]
    exact char jsrKeysOf key
  have char_npm : ∀ key, key ∈ ks.npm ↔ key ∈ npmKeysOf A.data ∧
      ∀ p ∈ locks, p.specifier ≠ spec → key ∉ npmKeysOf p.data := by
    intro key
    rw [hks]
    exact char npmKeysOf key
  have char_rem : ∀ key, key ∈ ks.remote ↔ key ∈ remoteKeysOf A.data ∧
      ∀ p ∈ locks, p.specifier ≠ spec → key ∉ remoteKeysOf p.data := by
    intro key
    rw [hks]
    exact char remoteKeysOf key
  refine ⟨⟨char_jsr, char_npm, char_rem⟩,
    fun original patch key p hp hps => ⟨fun hkp hko => ?_, fun hkp hko => ?_,
      fun hkp hko => ?_⟩⟩
  · exact writeStep_jsr_preserved original patch ks key hko
      fun hk => ((char_jsr key).1 hk).2 p hp hps hkp
  · exact writeStep_npm_preserved original patch ks key hko
      fun hk => ((char_npm key).1 hk).2 p hp hps hkp
  · exact writeStep_remote_preserved original patch ks key hko
      fun hk => ((char_rem key).1 hk).2 p hp hps hkp

/-- Witness for C1: dependencies `A` and `B` share `@x/p@1.0.0`; updating `A`
omits only `@x/a@1.0.0`. -/
theorem merge_reference_counting_witness :
    ((∀ key, key ∈ cexOmitKeys.jsr ↔ key ∈ jsrKeysOf lockEntryA.data ∧
        ∀ p ∈ [lockEntryA, lockEntryB], p.specifier ≠ "jsr:@x/a@^1.0.0" →
          key ∉ jsrKeysOf p.data) ∧
      (∀ key, key ∈ cexOmitKeys.npm ↔ key ∈ npmKeysOf lockEntryA.data ∧
        ∀ p ∈ [lockEntryA, lockEntryB], p.specifier ≠ "jsr:@x/a@^1.0.0" →
          key ∉ npmKeysOf p.data) ∧
      (∀ key, key ∈ cexOmitKeys.remote ↔ key ∈ remoteKeysOf lockEntryA.data ∧
        ∀ p ∈ [lockEntryA, lockEntryB], p.specifier ≠ "jsr:@x/a@^1.0.0" →
          key ∉ remoteKeysOf p.data)) ∧
    (∀ (original patch : LockFileJson) (key : String) (p : LockPart),
      p ∈ [lockEntryA, lockEntryB] → p.specifier ≠ "jsr:@x/a@^1.0.0" →
      (key ∈ jsrKeysOf p.data → key ∈ jsrKeysOf original →
        key ∈ jsrKeysOf (writeToLockfileStep original patch cexOmitKeys)) ∧
      (key ∈ npmKeysOf p.data → key ∈ npmKeysOf original →
        key ∈ npmKeysOf (writeToLockfileStep original patch cexOmitKeys)) ∧
      (key ∈ remoteKeysOf p.data → key ∈ remoteKeysOf original →
        key ∈ remoteKeysOf (writeToLockfileStep original patch cexOmitKeys))) :=
  merge_reference_counting "jsr:@x/a@^1.0.0" [lockEntryA, lockEntryB]
    lockEntryA cexOmitKeys (by rfl) (by rfl)

/-- C5 (code bug). The lock graph builder keeps no visited set: on a diamond
dependency graph the shared package `d@1.0.0` is fetched and inserted twice,
and on a cyclic dependency graph the recursion never terminates (no recursion
depth suffices). -/
theorem insert_no_dedup :
    ((createPackageLock diamondRegistry 10 diamondRoot "1.0.0").map fun st =>
        (st.calls.map fun e => stringifyNC { e.1 with constraint := e.2 }).count
          "d@1.0.0") = some 2 ∧
    (∀ (n : Nat) (st : LockSt) (t : String),
      insertPackage cycleRegistry n st cycleDep t = none) := by
  constructor
  · rfl
  · intro n
    induction n with
    | zero => intro st t; rfl
    | succ n ih =>
      intro st t
      have ih' : ∀ (st : LockSt) (t : String), insertPackage cycleRegistry n st
          { kind := .jsr, name := "self", constraint := "^1.0.0", path := "" }
          t = none := ih
      have hdeps : ∀ d, cycleRegistry.dependencies d =
          [{ kind := .jsr, name := "self", constraint := "^1.0.0",
             path := "" }] := fun _ => rfl
      have hupd : ∀ d, cycleRegistry.update d = none := fun _ => rfl
      simp [insertPackage, insertLoop, childTarget, regDep, hdeps, hupd, ih']

/-- C6. Transitive children are re-resolved: the fallback expression
`update?.constrainted ?? dep.constraint` takes the resolver's
constraint-satisfying version whenever one is available and the declared
constraint otherwise, and every recursive insertion except the root is
invoked with exactly that target. -/
theorem child_reresolution (R : Registry) :
    (∀ c : DepK,
      (∀ u v, R.update c = some u → u.constrainted = some v →
        childTarget R c = v) ∧
      (R.update c = none → childTarget R c = c.constraint) ∧
      (∀ u, R.update c = some u → u.constrainted = none →
        childTarget R c = c.constraint)) ∧
    (∀ (n : Nat) (st : LockSt) (d : DepK) (t : String) (st' : LockSt),
      insertPackage R n st d t = some st' →
      ∃ tail, st'.calls = st.calls ++ (d, t) :: tail ∧
        ∀ e ∈ tail, e.2 = childTarget R e.1) := by
  constructor
  · intro c
    refine ⟨fun u v hu hv => ?_, fun hu => ?_, fun u hu hv => ?_⟩
    · simp [childTarget, hu, hv]
    · simp [childTarget, hu]
    · simp [childTarget, hu, hv]
  · exact insertPackage_calls R

/-- Witness for C6 on the diamond registry: the whole recursive insertion
succeeds, its root call carries the requested target, and every other call
uses the child's re-resolved target. -/
theorem child_reresolution_witness :
    ∃ tail,
      ((insertPackage diamondRegistry 10 emptyLockSt diamondRoot
          "1.0.0").getD emptyLockSt).calls =
        emptyLockSt.calls ++ (diamondRoot, "1.0.0") :: tail ∧
      ∀ e ∈ tail, e.2 = childTarget diamondRegistry e.1 :=
  (child_reresolution diamondRegistry).2 10 emptyLockSt diamondRoot "1.0.0" _
    (by rfl)

end Molt
